import Mathlib

/-!
Verification of the tile-map viewer's viewport transform and path-tracing
engine, shallowly embedded from `src/script.js` (two variants separated by a
document marker; the first, gated variant is embedded as the main model, the
second as namespace `V2`).  Screen/world coordinates are JS numbers, embedded
as rationals; tile coordinates are integers.
-/

/-- Cardinal direction tokens emitted by the path tracer. -/
inductive Dir where
  | up
  | down
  | left
  | right
deriving DecidableEq, Repr

/-- A grid cell: integer (col, row), as produced by `worldToTile`. -/
structure Tile where
  x : Int
  y : Int
deriving DecidableEq, Repr

/-- A 2-D point (screen or world pixels). -/
structure Point where
  x : ℚ
  y : ℚ
deriving DecidableEq, Repr

/-- `const TILE_SIZE = 16` in `script.js`. -/
def TILE_SIZE : ℚ := 16

/-- `const ZOOM_MIN = 0.1`. -/
def ZOOM_MIN : ℚ := 1 / 10

/-- `const ZOOM_MAX = 8`. -/
def ZOOM_MAX : ℚ := 8

/-- `clamp(v, a, b) { return Math.max(a, Math.min(b, v)); }` -/
def clamp (v a b : ℚ) : ℚ := max a (min b v)

/-- `screenToWorld(sx, sy)` from `script.js`:
`{ x: (sx - panX) / scale, y: (sy - panY) / scale }`. -/
def screenToWorld (scale panX panY sx sy : ℚ) : Point :=
  ⟨(sx - panX) / scale, (sy - panY) / scale⟩

/-- The inverse world-to-screen mapping used inline throughout the source
(`panX = midScreen.x - scale * midWorld.x` in `setZoom`, the pinch branch of
`onPointerMove` and the resize handler all place world point `w` at screen
point `scale * w + pan`). -/
def worldToScreen (scale panX panY wx wy : ℚ) : Point :=
  ⟨scale * wx + panX, scale * wy + panY⟩

/-- `worldToTile(wx, wy)`: `Math.floor(wx / TILE_SIZE)` componentwise. -/
def worldToTile (wx wy : ℚ) : Tile :=
  ⟨⌊wx / TILE_SIZE⌋, ⌊wy / TILE_SIZE⌋⟩

/-- `withinImage(wx, wy)`: `wx >= 0 && wy >= 0 && wx <= imgW && wy <= imgH`. -/
def withinImage (imgW imgH wx wy : ℚ) : Bool :=
  decide (0 ≤ wx) && decide (0 ≤ wy) && decide (wx ≤ imgW) && decide (wy ≤ imgH)

/-- The path tracer's mutable state in `script.js`:
`pathTiles`, `pathDirections`, `lastTile`, `isPathDrawing`. -/
structure PathState where
  pathTiles : List Tile
  pathDirections : List Dir
  lastTile : Option Tile
  isPathDrawing : Bool
deriving DecidableEq, Repr

/-- `clearPath()`: empties tiles and directions and nulls `lastTile`
(the DOM marker/output clearing is not modelled).  It does not touch
`isPathDrawing`. -/
def clearPath (s : PathState) : PathState :=
  { s with pathTiles := [], pathDirections := [], lastTile := none }

/-- `dirFromStep(dx, dy)` from `script.js`. -/
def dirFromStep (dx dy : Int) : Option Dir :=
  if dx = 1 ∧ dy = 0 then some .right
  else if dx = -1 ∧ dy = 0 then some .left
  else if dx = 0 ∧ dy = 1 then some .down
  else if dx = 0 ∧ dy = -1 then some .up
  else none

/-- Manhattan distance between two tiles; the `extendPathTo` while-loop
runs exactly this many iterations (proved below), so it is used as
structural fuel for the embedded loop. -/
def manhattan (a b : Tile) : Nat :=
  (b.x - a.x).natAbs + (b.y - a.y).natAbs

/-- The body of the `while (cx !== targetTile.x || cy !== targetTile.y)` loop
of `extendPathTo`, with the mutable `cx, cy, pathTiles, pathDirections`
passed explicitly.  Each iteration compares `Math.abs(remX) >= Math.abs(remY)`
and steps by `Math.sign` on the chosen axis, appending the stepped-to tile and
its direction token.  Fuel makes the recursion structural; `manhattan` fuel is
always enough (proved below). -/
def extendLoop (target : Tile) :
    Nat → Tile → List Tile → List Dir → List Tile × List Dir × Tile
  | 0, c, tiles, dirs => (tiles, dirs, c)
  | fuel + 1, c, tiles, dirs =>
    if c = target then (tiles, dirs, c)
    else
      let remX := target.x - c.x
      let remY := target.y - c.y
      let sx := if |remX| ≥ |remY| then remX.sign else 0
      let sy := if |remX| ≥ |remY| then 0 else remY.sign
      let c' : Tile := ⟨c.x + sx, c.y + sy⟩
      match dirFromStep sx sy with
      | some d => extendLoop target fuel c' (tiles ++ [c']) (dirs ++ [d])
      | none => extendLoop target fuel c' tiles dirs

/-- `extendPathTo(targetTile)`: no-op when `lastTile` is null, otherwise runs
the stepping loop and finally sets `lastTile = { x: cx, y: cy }` (the loop's
final cell). -/
def extendPathTo (s : PathState) (target : Tile) : PathState :=
  match s.lastTile with
  | none => s
  | some c =>
    let r := extendLoop target (manhattan c target) c s.pathTiles s.pathDirections
    { s with pathTiles := r.1, pathDirections := r.2.1, lastTile := some r.2.2 }

/-- The world-point core of `startPathAtScreen(sx, sy)` (everything after the
`screenToWorld` conversion): bounds-check, clear, seed one tile, mark drawing. -/
def startPathAtWorld (imgW imgH : ℚ) (s : PathState) (wx wy : ℚ) : PathState :=
  if withinImage imgW imgH wx wy then
    let t := worldToTile wx wy
    { pathTiles := [t], pathDirections := [], lastTile := some t,
      isPathDrawing := true }
  else s

/-- `endPath()`. -/
def endPath (s : PathState) : PathState :=
  { s with isPathDrawing := false }

/-- Pointer modality carried by pointer events. -/
inductive PtrType where
  | mouse
  | touch
deriving DecidableEq, Repr

/-- The world-point core of `movePathAtScreen(sx, sy, opts)`: bounds check,
extend only on entering a new tile, and finish the path when a mouse move
reports CTRL released. -/
def movePathAtWorld (imgW imgH : ℚ) (s : PathState) (wx wy : ℚ)
    (ptype : PtrType) (ctrl : Bool) : PathState :=
  if s.isPathDrawing = false then s
  else if withinImage imgW imgH wx wy = false then s
  else
    let t := worldToTile wx wy
    let s1 :=
      if (match s.lastTile with
          | none => true
          | some lt => decide (t ≠ lt)) then extendPathTo s t else s
    if ptype = .mouse ∧ ctrl = false then endPath s1 else s1

/-- The four path-tracer operations of the spec (§4.4), each dispatching to
the corresponding embedded source function. -/
inductive PathOp where
  | start (wx wy : ℚ)
  | extend (t : Tile)
  | finish
  | clear

def applyPathOp (imgW imgH : ℚ) (s : PathState) : PathOp → PathState
  | .start wx wy => startPathAtWorld imgW imgH s wx wy
  | .extend t => extendPathTo s t
  | .finish => endPath s
  | .clear => clearPath s

/-- A pointer record in the `pointers` map: `{x, y, type}`. -/
structure Ptr where
  x : ℚ
  y : ℚ
  ptype : PtrType
deriving DecidableEq, Repr

/-- `zoomMode`: `'fit'` or `'abs'`. -/
inductive ZoomMode where
  | fit
  | abs
deriving DecidableEq, Repr

/-- A pending touch draw candidate `{id, x, y, timer}`; the timer handle is
modelled by the candidate being present (cancelling clears the field, which
is exactly when `clearTimeout` prevents the callback). -/
structure Candidate where
  id : Nat
  x : ℚ
  y : ℚ
deriving DecidableEq, Repr

/-- JS `Map.set`: update in place if the key is present (keeping insertion
order), else append. -/
def setPtr (m : List (Nat × Ptr)) (id : Nat) (p : Ptr) : List (Nat × Ptr) :=
  if (m.lookup id).isSome then
    m.map (fun e => if e.1 = id then (id, p) else e)
  else m ++ [(id, p)]

/-- JS `Map.delete`. -/
def delPtr (m : List (Nat × Ptr)) (id : Nat) : List (Nat × Ptr) :=
  m.filter (fun e => e.1 ≠ id)

/-- `getTwoPointers()`: the first two values of the `pointers` map in
insertion order (`undefined` when fewer than two, modelled as `none`). -/
def getTwoPointers (m : List (Nat × Ptr)) : Option (Ptr × Ptr) :=
  match m with
  | (_, a) :: (_, b) :: _ => some (a, b)
  | _ => none

/-- `midpoint(a, b)`. -/
def midpointP (a b : Ptr) : Point :=
  ⟨(a.x + b.x) / 2, (a.y + b.y) / 2⟩

/-- The complete mutable state of the first (gated) `script.js` variant that
the pointer handlers touch.  `imgW`/`imgH` are passed as parameters since
they are fixed after image load. -/
structure AppState where
  scale : ℚ
  panX : ℚ
  panY : ℚ
  fitScale : ℚ
  zoomMode : ZoomMode
  pointers : List (Nat × Ptr)
  isPanning : Bool
  panLastX : ℚ
  panLastY : ℚ
  isPinching : Bool
  pinchStartDist : ℚ
  pinchStartScale : ℚ
  pinchMidWorld : Point
  path : PathState
  drawingPointerId : Option Nat
  drawCandidate : Option Candidate
deriving DecidableEq, Repr

/-- Initial module state of `script.js` (after image init; viewport numbers
kept at their declared initial values). -/
def initialState : AppState :=
  { scale := 1, panX := 0, panY := 0, fitScale := 1, zoomMode := .fit,
    pointers := [], isPanning := false, panLastX := 0, panLastY := 0,
    isPinching := false, pinchStartDist := 0, pinchStartScale := 1,
    pinchMidWorld := ⟨0, 0⟩,
    path := ⟨[], [], none, false⟩,
    drawingPointerId := none, drawCandidate := none }

/-- `startPathAtScreen(sx, sy)` lifted to the app state. -/
def startPathAtScreen (imgW imgH : ℚ) (s : AppState) (sx sy : ℚ) : AppState :=
  let w := screenToWorld s.scale s.panX s.panY sx sy
  { s with path := startPathAtWorld imgW imgH s.path w.x w.y }

/-- `movePathAtScreen(sx, sy, opts)` lifted to the app state. -/
def movePathAtScreen (imgW imgH : ℚ) (s : AppState) (sx sy : ℚ)
    (ptype : PtrType) (ctrl : Bool) : AppState :=
  let w := screenToWorld s.scale s.panX s.panY sx sy
  { s with path := movePathAtWorld imgW imgH s.path w.x w.y ptype ctrl }

/-- `abortDrawing(clear)`. -/
def abortDrawing (s : AppState) (clear : Bool) : AppState :=
  let p := if clear then clearPath s.path else s.path
  { s with path := { p with isPathDrawing := false }, drawingPointerId := none }

/-- `beginTouchDraw(id, x, y)`: no-op when already drawing, otherwise records
the drawing pointer and starts the path at the given screen point. -/
def beginTouchDraw (imgW imgH : ℚ) (s : AppState) (id : Nat) (x y : ℚ) :
    AppState :=
  if s.path.isPathDrawing then s
  else startPathAtScreen imgW imgH { s with drawingPointerId := some id } x y

/-- `cancelTouchCandidate()`: clears the timer and the candidate. -/
def cancelTouchCandidate (s : AppState) : AppState :=
  { s with drawCandidate := none }

/-- `Math.hypot` yields irrational values in general, so `dist` (and the
hypotenuse of `tryStartCandidateIfMoved`) is abstracted as a parameter
`distFn`; none of the verified claims depend on its value.  All gesture
machine functions take it explicitly. -/
def tryStartCandidateIfMoved (distFn : Point → Point → ℚ) (imgW imgH : ℚ)
    (s : AppState) (id : Nat) (x y : ℚ) : AppState :=
  match s.drawCandidate with
  | none => s
  | some c =>
    if c.id ≠ id then s
    else if distFn ⟨x, y⟩ ⟨c.x, c.y⟩ ≥ 8 ∧ s.pointers.length = 1 then
      beginTouchDraw imgW imgH (cancelTouchCandidate s) id x y
    else s

/-- `onPointerDown(e)` of the first (gated) variant.  The
`setPointerCapture` call and `preventDefault` are browser-side effects with
no modelled state. -/
def onPointerDown (distFn : Point → Point → ℚ) (imgW imgH : ℚ) (s : AppState)
    (id : Nat) (x y : ℚ) (ptype : PtrType) (button : Nat) (ctrl : Bool) :
    AppState :=
  let s := { s with pointers := setPtr s.pointers id ⟨x, y, ptype⟩ }
  match ptype with
  | .mouse =>
    if button ≠ 0 then s
    else if ctrl then startPathAtScreen imgW imgH s x y
    else { s with isPanning := true, panLastX := x, panLastY := y }
  | .touch =>
    if s.pointers.length = 2 then
      let s := cancelTouchCandidate s
      let s := if s.path.isPathDrawing then abortDrawing s true else s
      match getTwoPointers s.pointers with
      | some (a, b) =>
        { s with isPinching := true,
                 pinchStartDist := distFn ⟨a.x, a.y⟩ ⟨b.x, b.y⟩,
                 pinchStartScale := s.scale,
                 pinchMidWorld :=
                   screenToWorld s.scale s.panX s.panY (midpointP a b).x
                     (midpointP a b).y,
                 zoomMode := .abs }
      | none => s
    else if s.pointers.length = 1 then
      let s := cancelTouchCandidate s
      match s.pointers with
      | [(pid, p)] => { s with drawCandidate := some ⟨pid, p.x, p.y⟩ }
      | _ => s
    else s

/-- `onPointerMove(e)` of the first (gated) variant. -/
def onPointerMove (distFn : Point → Point → ℚ) (imgW imgH : ℚ) (s : AppState)
    (id : Nat) (x y : ℚ) (ptype : PtrType) (ctrl : Bool) : AppState :=
  if (s.pointers.lookup id).isNone then s
  else
    let s := { s with pointers := setPtr s.pointers id ⟨x, y, ptype⟩ }
    if s.isPinching = true ∧ 2 ≤ s.pointers.length then
      match getTwoPointers s.pointers with
      | some (a, b) =>
        if s.pinchStartDist > 0 then
          let factor := distFn ⟨a.x, a.y⟩ ⟨b.x, b.y⟩ / s.pinchStartDist
          let targetScale := clamp (s.pinchStartScale * factor) ZOOM_MIN ZOOM_MAX
          let mid := midpointP a b
          { s with scale := targetScale,
                   panX := mid.x - targetScale * s.pinchMidWorld.x,
                   panY := mid.y - targetScale * s.pinchMidWorld.y,
                   zoomMode := .abs }
        else s
      | none => s
    else if s.isPanning = true ∧ ptype = .mouse then
      { s with panX := s.panX + (x - s.panLastX),
               panY := s.panY + (y - s.panLastY),
               panLastX := x, panLastY := y }
    else
      let s := tryStartCandidateIfMoved distFn imgW imgH s id x y
      if s.path.isPathDrawing then
        if ptype = .touch ∧ s.drawingPointerId ≠ some id then s
        else movePathAtScreen imgW imgH s x y ptype ctrl
      else s

/-- `onPointerUp(e)` of the first (gated) variant (also used for
`pointercancel` / `lostpointercapture`). -/
def onPointerUp (s : AppState) (id : Nat) (ptype : PtrType) : AppState :=
  let s :=
    if (s.pointers.lookup id).isSome then
      { s with pointers := delPtr s.pointers id }
    else s
  match ptype with
  | .mouse =>
    let s := { s with isPanning := false }
    if s.path.isPathDrawing then { s with path := endPath s.path } else s
  | .touch =>
    let s :=
      match s.drawCandidate with
      | some c => if c.id = id then cancelTouchCandidate s else s
      | none => s
    let s :=
      if s.path.isPathDrawing = true ∧ s.drawingPointerId = some id then
        { s with path := endPath s.path, drawingPointerId := none }
      else s
    if s.pointers.length < 2 then { s with isPinching := false } else s

/-- The draw-candidate `setTimeout` callback: captured `pid, p.x, p.y` equal
the candidate's stored fields; it can only fire while the candidate (and
hence its uncancelled timer) is still present. -/
def timerFire (imgW imgH : ℚ) (s : AppState) : AppState :=
  match s.drawCandidate with
  | none => s
  | some c =>
    let s :=
      if s.pointers.length = 1 then beginTouchDraw imgW imgH s c.id c.x c.y
      else s
    cancelTouchCandidate s

/-- Raw pointer lifecycle events plus the candidate-timer callback. -/
inductive PEvent where
  | down (id : Nat) (x y : ℚ) (ptype : PtrType) (button : Nat) (ctrl : Bool)
  | move (id : Nat) (x y : ℚ) (ptype : PtrType) (ctrl : Bool)
  | up (id : Nat) (ptype : PtrType)
  | timer

def stepEvent (distFn : Point → Point → ℚ) (imgW imgH : ℚ) (s : AppState) :
    PEvent → AppState
  | .down id x y ptype button ctrl =>
      onPointerDown distFn imgW imgH s id x y ptype button ctrl
  | .move id x y ptype ctrl => onPointerMove distFn imgW imgH s id x y ptype ctrl
  | .up id ptype => onPointerUp s id ptype
  | .timer => timerFire imgW imgH s

def runEvents (distFn : Point → Point → ℚ) (imgW imgH : ℚ) (s : AppState)
    (evs : List PEvent) : AppState :=
  evs.foldl (stepEvent distFn imgW imgH) s

/-- An event of touch modality (the timer callback is touch-originated). -/
def touchEvent : PEvent → Prop
  | .down _ _ _ ptype _ _ => ptype = .touch
  | .move _ _ _ ptype _ => ptype = .touch
  | .up _ ptype => ptype = .touch
  | .timer => True

instance : DecidablePred touchEvent := by
  intro e
  cases e <;> simp [touchEvent] <;> infer_instance

/-- A concrete stand-in used to instantiate the abstract `distFn` parameter
in closed evaluations (witnesses and counterexamples); squared Euclidean
distance, exactly representable over ℚ. -/
def sqDist (a b : Point) : ℚ :=
  (a.x - b.x) ^ 2 + (a.y - b.y) ^ 2

namespace V2

/-- Mutable state of the second (ungated) `script.js` variant (no draw
candidate, no drawing-pointer id). -/
structure AppState where
  scale : ℚ
  panX : ℚ
  panY : ℚ
  fitScale : ℚ
  zoomMode : ZoomMode
  pointers : List (Nat × Ptr)
  isPanning : Bool
  panLastX : ℚ
  panLastY : ℚ
  isPinching : Bool
  pinchStartDist : ℚ
  pinchStartScale : ℚ
  pinchMidWorld : Point
  path : PathState
deriving DecidableEq, Repr

/-- `startPathAtScreen` of the second variant (same body as the first). -/
def startPathAtScreen (imgW imgH : ℚ) (s : AppState) (sx sy : ℚ) : AppState :=
  let w := screenToWorld s.scale s.panX s.panY sx sy
  { s with path := startPathAtWorld imgW imgH s.path w.x w.y }

/-- `onPointerDown(e)` of the second (ungated) variant: single touch starts a
path immediately; a second touch starts a pinch only when not drawing
(`if (isPathDrawing) return; // keep drawing if already started with 1
finger`). -/
def onPointerDown (distFn : Point → Point → ℚ) (imgW imgH : ℚ) (s : AppState)
    (id : Nat) (x y : ℚ) (ptype : PtrType) (button : Nat) (ctrl : Bool) :
    AppState :=
  let s := { s with pointers := setPtr s.pointers id ⟨x, y, ptype⟩ }
  match ptype with
  | .mouse =>
    if button ≠ 0 then s
    else if ctrl then startPathAtScreen imgW imgH s x y
    else { s with isPanning := true, panLastX := x, panLastY := y }
  | .touch =>
    if s.pointers.length = 1 then
      match s.pointers with
      | [(_, p)] => startPathAtScreen imgW imgH s p.x p.y
      | _ => s
    else if s.pointers.length = 2 then
      if s.path.isPathDrawing then s
      else
        match getTwoPointers s.pointers with
        | some (a, b) =>
          { s with isPinching := true,
                   pinchStartDist := distFn ⟨a.x, a.y⟩ ⟨b.x, b.y⟩,
                   pinchStartScale := s.scale,
                   pinchMidWorld :=
                     screenToWorld s.scale s.panX s.panY (midpointP a b).x
                       (midpointP a b).y }
        | none => s
    else s

end V2

/-- The viewport fields mutated by `computeFitAndCenter`, `setZoom`, the
pinch branch of `onPointerMove` and the resize handler. -/
structure ViewState where
  scale : ℚ
  panX : ℚ
  panY : ℚ
  fitScale : ℚ
  zoomMode : ZoomMode
deriving DecidableEq, Repr

/-- The `contentRect()` result: `{x, y, w, h}`. -/
structure Rect where
  x : ℚ
  y : ℚ
  w : ℚ
  h : ℚ
deriving DecidableEq, Repr

/-- `computeFitAndCenter()`: `fitScale = Math.min(rect.w / imgW, rect.h /
imgH); scale = fitScale;` then centers the image.  Note: no clamping. -/
def computeFitAndCenter (imgW imgH : ℚ) (r : Rect) (v : ViewState) :
    ViewState :=
  let fitScale := min (r.w / imgW) (r.h / imgH)
  let scale := fitScale
  { v with fitScale := fitScale, scale := scale,
           panX := r.x + (r.w - imgW * scale) / 2,
           panY := r.y + (r.h - imgH * scale) / 2 }

/-- A zoom-button command: `'fit'` or a numeric mode string. -/
inductive ZoomCmd where
  | fit
  | abs (target : ℚ)
deriving DecidableEq, Repr

/-- `setZoom(mode)`. -/
def setZoom (imgW imgH : ℚ) (r : Rect) (cmd : ZoomCmd) (v : ViewState) :
    ViewState :=
  let midX := r.x + r.w / 2
  let midY := r.y + r.h / 2
  let midWorld := screenToWorld v.scale v.panX v.panY midX midY
  match cmd with
  | .fit => computeFitAndCenter imgW imgH r { v with zoomMode := .fit }
  | .abs t =>
    let targetScale := clamp t ZOOM_MIN ZOOM_MAX
    { v with zoomMode := .abs, scale := targetScale,
             panX := midX - targetScale * midWorld.x,
             panY := midY - targetScale * midWorld.y }

/-- The scale/pan update of the pinch branch of `onPointerMove`, with the
gesture-supplied quantities (pinch-start distance and scale, the fixed world
anchor, the current midpoint and current distance) as parameters.  Guarded
by `if (pinchStartDist > 0)`. -/
def pinchZoomUpdate (startDist startScale newDist : ℚ) (mid anchorWorld : Point)
    (v : ViewState) : ViewState :=
  if startDist > 0 then
    let factor := newDist / startDist
    let targetScale := clamp (startScale * factor) ZOOM_MIN ZOOM_MAX
    { v with scale := targetScale,
             panX := mid.x - targetScale * anchorWorld.x,
             panY := mid.y - targetScale * anchorWorld.y,
             zoomMode := .abs }
  else v

/-- The `window resize` handler: re-fit in fit mode, otherwise keep the
scale and re-anchor the content-rect center. -/
def onResize (imgW imgH : ℚ) (r : Rect) (v : ViewState) : ViewState :=
  match v.zoomMode with
  | .fit => computeFitAndCenter imgW imgH r v
  | .abs =>
    let midX := r.x + r.w / 2
    let midY := r.y + r.h / 2
    let midWorld := screenToWorld v.scale v.panX v.panY midX midY
    { v with panX := midX - v.scale * midWorld.x,
             panY := midY - v.scale * midWorld.y }

/-- The viewport operations of the claim: explicit zoom commands, pinch-zoom
updates, and container resizes. -/
inductive ViewOp where
  | zoomCmd (r : Rect) (cmd : ZoomCmd)
  | pinch (startDist startScale newDist : ℚ) (mid anchorWorld : Point)
  | resize (r : Rect)

def applyViewOp (imgW imgH : ℚ) (v : ViewState) : ViewOp → ViewState
  | .zoomCmd r cmd => setZoom imgW imgH r cmd v
  | .pinch sd ss nd mid aw => pinchZoomUpdate sd ss nd mid aw v
  | .resize r => onResize imgW imgH r v

/-- A viewport operation that does not invoke the fit computation:
an absolute zoom command, a pinch update, or a resize (resize recomputes the
fit only in Fit mode, which the invariant below excludes). -/
def nonFitOp : ViewOp → Prop
  | .zoomCmd _ .fit => False
  | .zoomCmd _ (.abs _) => True
  | .pinch _ _ _ _ _ => True
  | .resize _ => True

/-- One greedy step as worded by the spec: "step along whichever axis has
the larger (or equal) absolute remaining delta, ties broken in favor of the
horizontal axis".  Written from the spec's words, for comparison with the
source's `extendLoop`. -/
def specStep (c t : Tile) : Tile :=
  if |t.x - c.x| ≥ |t.y - c.y| then ⟨c.x + (t.x - c.x).sign, c.y⟩
  else ⟨c.x, c.y + (t.y - c.y).sign⟩

/-- The spec's direction-token encoding of a single axis step (§4.4):
(+1,0) → right, (−1,0) → left, (0,+1) → down, (0,−1) → up. -/
def specDirOf (c c' : Tile) : Dir :=
  if c'.x > c.x then .right
  else if c'.x < c.x then .left
  else if c'.y > c.y then .down
  else .up

/-- The cell and direction sequences the spec's greedy rule appends when
extending from `c` to `t` (fuel-indexed; `manhattan c t` suffices). -/
def specTrace : Nat → Tile → Tile → List Tile × List Dir
  | 0, _, _ => ([], [])
  | fuel + 1, c, t =>
    if c = t then ([], [])
    else
      let c' := specStep c t
      let rest := specTrace fuel c' t
      (c' :: rest.1, specDirOf c c' :: rest.2)

/-- Checks that from current cell `a`, the remaining cells `rest` and tokens
`dirs` pair up one-to-one, with each consecutive delta a legal unit step
whose `dirFromStep` encoding is the recorded token. -/
def stepsMatch : Tile → List Tile → List Dir → Bool
  | _, [], [] => true
  | a, b :: ts, d :: ds =>
    decide (dirFromStep (b.x - a.x) (b.y - a.y) = some d) && stepsMatch b ts ds
  | _, _, _ => false

/-- The invariant exactly as the claim states it: the cells list is nonempty
with directions exactly one shorter, consecutive cells differ by one unit on
one axis, and each token encodes its step (`stepsMatch` enforces all of
this; an empty cells list cannot have one more element than directions). -/
def claimedInvB (s : PathState) : Bool :=
  match s.pathTiles with
  | [] => false
  | a :: rest => stepsMatch a rest s.pathDirections

/-- The repaired invariant: either the path is completely empty (the cleared
state), or the claimed invariant holds and `lastTile` is the final recorded
cell. -/
def pathInvB (s : PathState) : Bool :=
  match s.pathTiles with
  | [] => s.pathDirections.isEmpty && s.lastTile.isNone
  | a :: rest =>
    stepsMatch a rest s.pathDirections &&
      decide (s.lastTile = (a :: rest).getLast?)

theorem sign_natAbs_step (a : Int) (h : a ≠ 0) :
    (a - a.sign).natAbs + 1 = a.natAbs := by
  rcases lt_or_gt_of_ne h with hneg | hpos
  · have hs : a.sign = -1 := Int.sign_eq_neg_one_of_neg hneg
    rw [hs]; omega
  · have hs : a.sign = 1 := Int.sign_eq_one_of_pos hpos
    rw [hs]; omega

theorem manhattan_eq_zero {c t : Tile} : manhattan c t = 0 ↔ c = t := by
  cases c; cases t
  simp only [manhattan, Tile.mk.injEq]
  omega

theorem tile_ne_of_components {c t : Tile} (hne : c ≠ t) :
    t.x - c.x ≠ 0 ∨ t.y - c.y ≠ 0 := by
  cases c; cases t
  simp only [ne_eq, Tile.mk.injEq, not_and] at hne ⊢
  omega

theorem remX_ne_zero {c t : Tile} (hne : c ≠ t)
    (h : |t.x - c.x| ≥ |t.y - c.y|) : t.x - c.x ≠ 0 := by
  rcases tile_ne_of_components hne with hx | hy
  · exact hx
  · intro h0
    rw [h0] at h
    simp only [abs_zero] at h
    exact hy (abs_nonpos_iff.mp h)

theorem remY_ne_zero {c t : Tile}
    (h : ¬ |t.x - c.x| ≥ |t.y - c.y|) : t.y - c.y ≠ 0 := by
  intro h0
  rw [h0] at h
  exact h (abs_nonneg _)

theorem manhattan_stepX (c t : Tile) (h : t.x - c.x ≠ 0) :
    manhattan ⟨c.x + (t.x - c.x).sign, c.y⟩ t + 1 = manhattan c t := by
  have hstep := sign_natAbs_step (t.x - c.x) h
  simp only [manhattan]
  have hrw : t.x - (c.x + (t.x - c.x).sign) = t.x - c.x - (t.x - c.x).sign := by
    ring
  rw [hrw]
  omega

theorem manhattan_stepY (c t : Tile) (h : t.y - c.y ≠ 0) :
    manhattan ⟨c.x, c.y + (t.y - c.y).sign⟩ t + 1 = manhattan c t := by
  have hstep := sign_natAbs_step (t.y - c.y) h
  simp only [manhattan]
  have hrw : t.y - (c.y + (t.y - c.y).sign) = t.y - c.y - (t.y - c.y).sign := by
    ring
  rw [hrw]
  omega

theorem dirFromStep_sign_x (r : Int) (h : r ≠ 0) :
    dirFromStep r.sign 0 = some (if 0 < r then Dir.right else Dir.left) := by
  rcases lt_or_gt_of_ne h with hneg | hpos
  · rw [Int.sign_eq_neg_one_of_neg hneg, if_neg (by omega)]
    decide
  · rw [Int.sign_eq_one_of_pos hpos, if_pos hpos]
    decide

theorem dirFromStep_sign_y (r : Int) (h : r ≠ 0) :
    dirFromStep 0 r.sign = some (if 0 < r then Dir.down else Dir.up) := by
  rcases lt_or_gt_of_ne h with hneg | hpos
  · rw [Int.sign_eq_neg_one_of_neg hneg, if_neg (by omega)]
    decide
  · rw [Int.sign_eq_one_of_pos hpos, if_pos hpos]
    decide

theorem extendLoop_stop (target c : Tile) (fuel : Nat) (tiles : List Tile)
    (dirs : List Dir) (h : c = target) :
    extendLoop target (fuel + 1) c tiles dirs = (tiles, dirs, c) := by
  simp [extendLoop, h]

theorem extendLoop_stepX (target c : Tile) (fuel : Nat) (tiles : List Tile)
    (dirs : List Dir) (d : Dir) (hne : ¬ c = target)
    (h : |target.x - c.x| ≥ |target.y - c.y|)
    (hd : dirFromStep (target.x - c.x).sign 0 = some d) :
    extendLoop target (fuel + 1) c tiles dirs =
      extendLoop target fuel ⟨c.x + (target.x - c.x).sign, c.y⟩
        (tiles ++ [⟨c.x + (target.x - c.x).sign, c.y⟩]) (dirs ++ [d]) := by
  simp only [extendLoop, if_neg hne, if_pos h, hd, add_zero]

theorem extendLoop_stepY (target c : Tile) (fuel : Nat) (tiles : List Tile)
    (dirs : List Dir) (d : Dir) (hne : ¬ c = target)
    (h : ¬ |target.x - c.x| ≥ |target.y - c.y|)
    (hd : dirFromStep 0 (target.y - c.y).sign = some d) :
    extendLoop target (fuel + 1) c tiles dirs =
      extendLoop target fuel ⟨c.x, c.y + (target.y - c.y).sign⟩
        (tiles ++ [⟨c.x, c.y + (target.y - c.y).sign⟩]) (dirs ++ [d]) := by
  simp only [extendLoop, if_neg hne, if_neg h, hd, add_zero]

theorem specStep_x {c t : Tile} (hx : |t.x - c.x| ≥ |t.y - c.y|) :
    specStep c t = ⟨c.x + (t.x - c.x).sign, c.y⟩ := by
  simp [specStep, hx]

theorem specStep_y {c t : Tile} (hx : ¬ |t.x - c.x| ≥ |t.y - c.y|) :
    specStep c t = ⟨c.x, c.y + (t.y - c.y).sign⟩ := by
  simp [specStep, hx]

theorem specDirOf_sign_x (c : Tile) (r : Int) (h : r ≠ 0) :
    specDirOf c ⟨c.x + r.sign, c.y⟩ =
      (if 0 < r then Dir.right else Dir.left) := by
  rcases lt_or_gt_of_ne h with hneg | hpos
  · rw [Int.sign_eq_neg_one_of_neg hneg, if_neg (by omega)]
    simp only [specDirOf]
    rw [if_neg (by simp), if_pos (by simp)]
  · rw [Int.sign_eq_one_of_pos hpos, if_pos hpos]
    simp only [specDirOf]
    rw [if_pos (by simp)]

theorem specDirOf_sign_y (c : Tile) (r : Int) (h : r ≠ 0) :
    specDirOf c ⟨c.x, c.y + r.sign⟩ =
      (if 0 < r then Dir.down else Dir.up) := by
  rcases lt_or_gt_of_ne h with hneg | hpos
  · rw [Int.sign_eq_neg_one_of_neg hneg, if_neg (by omega)]
    simp only [specDirOf]
    rw [if_neg (by simp), if_neg (by simp), if_neg (by simp)]
  · rw [Int.sign_eq_one_of_pos hpos, if_pos hpos]
    simp only [specDirOf]
    rw [if_neg (by simp), if_neg (by simp), if_pos (by simp)]

theorem extendLoop_eq_specTrace (t : Tile) :
    ∀ (fuel : Nat) (c : Tile) (tiles : List Tile) (dirs : List Dir),
      manhattan c t ≤ fuel →
      extendLoop t fuel c tiles dirs =
        (tiles ++ (specTrace fuel c t).1, dirs ++ (specTrace fuel c t).2, t) := by
  intro fuel
  induction fuel with
  | zero =>
    intro c tiles dirs hf
    have hc : c = t := manhattan_eq_zero.mp (Nat.le_zero.mp hf)
    subst hc
    simp [extendLoop, specTrace]
  | succ fuel ih =>
    intro c tiles dirs hf
    by_cases hc : c = t
    · subst hc
      rw [extendLoop_stop _ _ _ _ _ rfl]
      simp [specTrace]
    · have hspec : specTrace (fuel + 1) c t =
          (specStep c t :: (specTrace fuel (specStep c t) t).1,
           specDirOf c (specStep c t) :: (specTrace fuel (specStep c t) t).2) := by
        simp [specTrace, hc]
      by_cases hx : |t.x - c.x| ≥ |t.y - c.y|
      · have hr := remX_ne_zero hc hx
        have hd := dirFromStep_sign_x _ hr
        rw [extendLoop_stepX t c fuel tiles dirs _ hc hx hd]
        have hm : manhattan ⟨c.x + (t.x - c.x).sign, c.y⟩ t ≤ fuel := by
          have := manhattan_stepX c t hr
          omega
        rw [ih _ _ _ hm, hspec, specStep_x hx, specDirOf_sign_x c _ hr]
        simp
      · have hr := remY_ne_zero hx
        have hd := dirFromStep_sign_y _ hr
        rw [extendLoop_stepY t c fuel tiles dirs _ hc hx hd]
        have hm : manhattan ⟨c.x, c.y + (t.y - c.y).sign⟩ t ≤ fuel := by
          have := manhattan_stepY c t hr
          omega
        rw [ih _ _ _ hm, hspec, specStep_y hx, specDirOf_sign_y c _ hr]
        simp

theorem manhattan_specStep {c t : Tile} (hne : c ≠ t) :
    manhattan (specStep c t) t + 1 = manhattan c t := by
  by_cases hx : |t.x - c.x| ≥ |t.y - c.y|
  · rw [specStep_x hx]
    exact manhattan_stepX c t (remX_ne_zero hne hx)
  · rw [specStep_y hx]
    exact manhattan_stepY c t (remY_ne_zero hx)

theorem specTrace_length (t : Tile) :
    ∀ (fuel : Nat) (c : Tile), manhattan c t ≤ fuel →
      (specTrace fuel c t).1.length = manhattan c t ∧
      (specTrace fuel c t).2.length = manhattan c t := by
  intro fuel
  induction fuel with
  | zero =>
    intro c hf
    have hc : c = t := manhattan_eq_zero.mp (Nat.le_zero.mp hf)
    subst hc
    simp [specTrace, manhattan_eq_zero.mpr rfl]
  | succ fuel ih =>
    intro c hf
    by_cases hc : c = t
    · subst hc
      simp [specTrace, manhattan_eq_zero.mpr rfl]
    · have hdec := manhattan_specStep hc
      have hm : manhattan (specStep c t) t ≤ fuel := by omega
      have := ih (specStep c t) hm
      simp only [specTrace, if_neg hc, List.length_cons]
      omega

theorem stepsMatch_append :
    ∀ (rest : List Tile) (a : Tile) (dirs : List Dir) (c c' : Tile) (d : Dir),
      stepsMatch a rest dirs = true →
      (a :: rest).getLast? = some c →
      dirFromStep (c'.x - c.x) (c'.y - c.y) = some d →
      stepsMatch a (rest ++ [c']) (dirs ++ [d]) = true := by
  intro rest
  induction rest with
  | nil =>
    intro a dirs c c' d h1 h2 h3
    cases dirs with
    | nil =>
      simp only [List.getLast?_singleton, Option.some.injEq] at h2
      subst h2
      simp [stepsMatch, h3]
    | cons d0 ds => simp [stepsMatch] at h1
  | cons b ts ih =>
    intro a dirs c c' d h1 h2 h3
    cases dirs with
    | nil => simp [stepsMatch] at h1
    | cons d0 ds =>
      simp only [stepsMatch, Bool.and_eq_true, decide_eq_true_eq] at h1
      rw [List.getLast?_cons_cons] at h2
      have := ih b ds c c' d h1.2 h2 h3
      simp only [List.cons_append, stepsMatch, Bool.and_eq_true,
        decide_eq_true_eq]
      exact ⟨h1.1, this⟩

theorem extendLoop_pathInv (t : Tile) :
    ∀ (fuel : Nat) (c a : Tile) (rest : List Tile) (dirs : List Dir),
      stepsMatch a rest dirs = true →
      (a :: rest).getLast? = some c →
      ∃ rest',
        (extendLoop t fuel c (a :: rest) dirs).1 = a :: rest' ∧
        stepsMatch a rest' (extendLoop t fuel c (a :: rest) dirs).2.1 = true ∧
        (a :: rest').getLast? = some (extendLoop t fuel c (a :: rest) dirs).2.2 := by
  intro fuel
  induction fuel with
  | zero =>
    intro c a rest dirs h1 h2
    exact ⟨rest, rfl, h1, h2⟩
  | succ fuel ih =>
    intro c a rest dirs h1 h2
    by_cases hc : c = t
    · rw [extendLoop_stop _ _ _ _ _ hc]
      exact ⟨rest, rfl, h1, h2⟩
    · by_cases hx : |t.x - c.x| ≥ |t.y - c.y|
      · have hr := remX_ne_zero hc hx
        have hd := dirFromStep_sign_x _ hr
        rw [extendLoop_stepX t c fuel _ _ _ hc hx hd]
        have hd' : dirFromStep ((⟨c.x + (t.x - c.x).sign, c.y⟩ : Tile).x - c.x)
            ((⟨c.x + (t.x - c.x).sign, c.y⟩ : Tile).y - c.y) =
            some (if 0 < t.x - c.x then Dir.right else Dir.left) := by
          simp only [add_sub_cancel_left, sub_self]
          exact hd
        have h1' := stepsMatch_append rest a dirs c _ _ h1 h2 hd'
        have h2' : (a :: (rest ++ [(⟨c.x + (t.x - c.x).sign, c.y⟩ : Tile)])).getLast?
            = some (⟨c.x + (t.x - c.x).sign, c.y⟩ : Tile) := by
          rw [← List.cons_append]
          exact List.getLast?_concat _
        have := ih _ a _ _ h1' h2'
        simpa using this
      · have hr := remY_ne_zero hx
        have hd := dirFromStep_sign_y _ hr
        rw [extendLoop_stepY t c fuel _ _ _ hc hx hd]
        have hd' : dirFromStep ((⟨c.x, c.y + (t.y - c.y).sign⟩ : Tile).x - c.x)
            ((⟨c.x, c.y + (t.y - c.y).sign⟩ : Tile).y - c.y) =
            some (if 0 < t.y - c.y then Dir.down else Dir.up) := by
          simp only [add_sub_cancel_left, sub_self]
          exact hd
        have h1' := stepsMatch_append rest a dirs c _ _ h1 h2 hd'
        have h2' : (a :: (rest ++ [(⟨c.x, c.y + (t.y - c.y).sign⟩ : Tile)])).getLast?
            = some (⟨c.x, c.y + (t.y - c.y).sign⟩ : Tile) := by
          rw [← List.cons_append]
          exact List.getLast?_concat _
        have := ih _ a _ _ h1' h2'
        simpa using this

theorem pathInvB_endPath (s : PathState) : pathInvB (endPath s) = pathInvB s := rfl

theorem pathInvB_clearPath (s : PathState) : pathInvB (clearPath s) = true := rfl

theorem pathInvB_start (imgW imgH : ℚ) (s : PathState) (wx wy : ℚ)
    (h : pathInvB s = true) :
    pathInvB (startPathAtWorld imgW imgH s wx wy) = true := by
  unfold startPathAtWorld
  split
  · simp [pathInvB, stepsMatch]
  · exact h

theorem pathInvB_extend (s : PathState) (t : Tile) (h : pathInvB s = true) :
    pathInvB (extendPathTo s t) = true := by
  cases hlt : s.lastTile with
  | none =>
    unfold extendPathTo
    rw [hlt]
    exact h
  | some c =>
    cases hpt : s.pathTiles with
    | nil =>
      exfalso
      unfold pathInvB at h
      rw [hpt] at h
      simp only [Bool.and_eq_true, Option.isNone_iff_eq_none] at h
      rw [hlt] at h
      exact Option.some_ne_none c h.2
    | cons a rest =>
      unfold pathInvB at h
      rw [hpt] at h
      simp only [Bool.and_eq_true, decide_eq_true_eq] at h
      have hlast : (a :: rest).getLast? = some c := by rw [← h.2, hlt]
      obtain ⟨rest', hr1, hr2, hr3⟩ :=
        extendLoop_pathInv t (manhattan c t) c a rest s.pathDirections h.1 hlast
      unfold extendPathTo
      rw [hlt]
      unfold pathInvB
      simp only [hpt]
      rw [hr1]
      simp only [Bool.and_eq_true, decide_eq_true_eq]
      exact ⟨hr2, hr3.symm⟩

/-- Every path-tracer operation preserves the repaired path invariant. -/
theorem pathInvB_op (imgW imgH : ℚ) (s : PathState) (op : PathOp)
    (h : pathInvB s = true) : pathInvB (applyPathOp imgW imgH s op) = true := by
  cases op with
  | start wx wy => exact pathInvB_start imgW imgH s wx wy h
  | extend t => exact pathInvB_extend s t h
  | finish => rw [applyPathOp, pathInvB_endPath]; exact h
  | clear => exact pathInvB_clearPath s

theorem le_setPtr_length (m : List (Nat × Ptr)) (id : Nat) (p : Ptr) :
    m.length ≤ (setPtr m id p).length := by
  unfold setPtr
  split
  · simp
  · simp

theorem delPtr_length_le (m : List (Nat × Ptr)) (id : Nat) :
    (delPtr m id).length ≤ m.length := by
  exact List.length_filter_le _ m

/-- Invariant of the gesture machine under touch-only event streams:
mouse panning never turns on, pinching requires at least two active pointers,
and drawing and pinching are never simultaneously active. -/
def touchInv (s : AppState) : Prop :=
  s.isPanning = false ∧
  (s.isPinching = true → 2 ≤ s.pointers.length) ∧
  ¬(s.path.isPathDrawing = true ∧ s.isPinching = true)

theorem beginTouchDraw_isPanning (imgW imgH : ℚ) (s : AppState) (id : Nat)
    (x y : ℚ) : (beginTouchDraw imgW imgH s id x y).isPanning = s.isPanning := by
  unfold beginTouchDraw startPathAtScreen
  split <;> rfl

theorem beginTouchDraw_isPinching (imgW imgH : ℚ) (s : AppState) (id : Nat)
    (x y : ℚ) : (beginTouchDraw imgW imgH s id x y).isPinching = s.isPinching := by
  unfold beginTouchDraw startPathAtScreen
  split <;> rfl

theorem beginTouchDraw_pointers (imgW imgH : ℚ) (s : AppState) (id : Nat)
    (x y : ℚ) : (beginTouchDraw imgW imgH s id x y).pointers = s.pointers := by
  unfold beginTouchDraw startPathAtScreen
  split <;> rfl

theorem touchInv_beginTouchDraw (imgW imgH : ℚ) (s : AppState) (id : Nat)
    (x y : ℚ) (h : touchInv s) (hp : s.isPinching = false) :
    touchInv (beginTouchDraw imgW imgH s id x y) := by
  obtain ⟨h1, h2, h3⟩ := h
  refine ⟨?_, ?_, ?_⟩
  · rw [beginTouchDraw_isPanning]; exact h1
  · rw [beginTouchDraw_isPinching, beginTouchDraw_pointers]; exact h2
  · rw [beginTouchDraw_isPinching, hp]
    rintro ⟨-, hc⟩
    exact Bool.false_ne_true hc

theorem touchInv_down (distFn : Point → Point → ℚ) (imgW imgH : ℚ)
    (s : AppState) (id : Nat) (x y : ℚ) (button : Nat) (ctrl : Bool)
    (h : touchInv s) :
    touchInv (onPointerDown distFn imgW imgH s id x y .touch button ctrl) := by
  obtain ⟨h1, h2, h3⟩ := h
  have hlen := le_setPtr_length s.pointers id ⟨x, y, .touch⟩
  unfold onPointerDown
  dsimp only
  by_cases hl2 : (setPtr s.pointers id ⟨x, y, PtrType.touch⟩).length = 2
  · rw [if_pos hl2]
    dsimp only [cancelTouchCandidate]
    by_cases hd : s.path.isPathDrawing = true
    · rw [if_pos hd]
      dsimp only [abortDrawing, clearPath]
      cases hg : getTwoPointers (setPtr s.pointers id ⟨x, y, PtrType.touch⟩) with
      | none =>
        exact ⟨h1, fun _ => by rw [hl2], by simp⟩
      | some ab =>
        exact ⟨h1, fun _ => by rw [hl2], by simp⟩
    · rw [if_neg hd]
      cases hg : getTwoPointers (setPtr s.pointers id ⟨x, y, PtrType.touch⟩) with
      | none =>
        refine ⟨h1, fun _ => by rw [hl2], ?_⟩
        rintro ⟨hdd, -⟩
        exact hd hdd
      | some ab =>
        refine ⟨h1, fun _ => by rw [hl2], ?_⟩
        rintro ⟨hdd, -⟩
        exact hd hdd
  · rw [if_neg hl2]
    by_cases hl1 : (setPtr s.pointers id ⟨x, y, PtrType.touch⟩).length = 1
    · rw [if_pos hl1]
      dsimp only [cancelTouchCandidate]
      cases hm : setPtr s.pointers id ⟨x, y, PtrType.touch⟩ with
      | nil => rw [hm] at hl1; simp at hl1
      | cons e rest =>
        cases e with
        | mk pid p =>
          cases rest with
          | nil =>
            refine ⟨h1, fun hpp => ?_, ?_⟩
            · exfalso
              have := h2 hpp
              rw [hm] at hlen
              simp at hlen
              omega
            · rintro ⟨hdd, hpp⟩
              exact h3 ⟨hdd, hpp⟩
          | cons e2 rest2 =>
            rw [hm] at hl1
            simp at hl1
    · rw [if_neg hl1]
      refine ⟨h1, fun hpp => ?_, h3⟩
      exact le_trans (h2 hpp) hlen

theorem setPtr_length_of_isSome (m : List (Nat × Ptr)) (id : Nat) (p : Ptr)
    (h : (m.lookup id).isSome = true) : (setPtr m id p).length = m.length := by
  simp [setPtr, h]

theorem touchInv_tryStart (distFn : Point → Point → ℚ) (imgW imgH : ℚ)
    (s : AppState) (id : Nat) (x y : ℚ) (h : touchInv s) :
    touchInv (tryStartCandidateIfMoved distFn imgW imgH s id x y) := by
  obtain ⟨h1, h2, h3⟩ := h
  unfold tryStartCandidateIfMoved
  cases hc : s.drawCandidate with
  | none => exact ⟨h1, h2, h3⟩
  | some c =>
    dsimp only
    by_cases hid : c.id ≠ id
    · rw [if_pos hid]
      exact ⟨h1, h2, h3⟩
    · rw [if_neg hid]
      by_cases hcond : distFn ⟨x, y⟩ ⟨c.x, c.y⟩ ≥ 8 ∧ s.pointers.length = 1
      · rw [if_pos hcond]
        apply touchInv_beginTouchDraw
        · exact ⟨h1, h2, h3⟩
        · show s.isPinching = false
          rcases Bool.eq_false_or_eq_true s.isPinching with ht | hf
          · exfalso
            have := h2 ht
            rw [hcond.2] at this
            omega
          · exact hf
      · rw [if_neg hcond]
        exact ⟨h1, h2, h3⟩

theorem tryStart_isPanning (distFn : Point → Point → ℚ) (imgW imgH : ℚ)
    (s : AppState) (id : Nat) (x y : ℚ) :
    (tryStartCandidateIfMoved distFn imgW imgH s id x y).isPanning =
      s.isPanning := by
  unfold tryStartCandidateIfMoved
  cases hcand : s.drawCandidate with
  | none => rfl
  | some c =>
    dsimp only
    split
    · rfl
    · split
      · rw [beginTouchDraw_isPanning]
        rfl
      · rfl

theorem tryStart_isPinching (distFn : Point → Point → ℚ) (imgW imgH : ℚ)
    (s : AppState) (id : Nat) (x y : ℚ) :
    (tryStartCandidateIfMoved distFn imgW imgH s id x y).isPinching =
      s.isPinching := by
  unfold tryStartCandidateIfMoved
  cases hcand : s.drawCandidate with
  | none => rfl
  | some c =>
    dsimp only
    split
    · rfl
    · split
      · rw [beginTouchDraw_isPinching]
        rfl
      · rfl

theorem tryStart_pointers (distFn : Point → Point → ℚ) (imgW imgH : ℚ)
    (s : AppState) (id : Nat) (x y : ℚ) :
    (tryStartCandidateIfMoved distFn imgW imgH s id x y).pointers =
      s.pointers := by
  unfold tryStartCandidateIfMoved
  cases hcand : s.drawCandidate with
  | none => rfl
  | some c =>
    dsimp only
    split
    · rfl
    · split
      · rw [beginTouchDraw_pointers]
        rfl
      · rfl

theorem movePathAtScreen_isPanning (imgW imgH : ℚ) (s : AppState) (sx sy : ℚ)
    (ptype : PtrType) (ctrl : Bool) :
    (movePathAtScreen imgW imgH s sx sy ptype ctrl).isPanning = s.isPanning :=
  rfl

theorem movePathAtScreen_isPinching (imgW imgH : ℚ) (s : AppState) (sx sy : ℚ)
    (ptype : PtrType) (ctrl : Bool) :
    (movePathAtScreen imgW imgH s sx sy ptype ctrl).isPinching = s.isPinching :=
  rfl

theorem movePathAtScreen_pointers (imgW imgH : ℚ) (s : AppState) (sx sy : ℚ)
    (ptype : PtrType) (ctrl : Bool) :
    (movePathAtScreen imgW imgH s sx sy ptype ctrl).pointers = s.pointers :=
  rfl

theorem touchInv_move (distFn : Point → Point → ℚ) (imgW imgH : ℚ)
    (s : AppState) (id : Nat) (x y : ℚ) (ctrl : Bool) (h : touchInv s) :
    touchInv (onPointerMove distFn imgW imgH s id x y .touch ctrl) := by
  obtain ⟨h1, h2, h3⟩ := h
  unfold onPointerMove
  by_cases hlk : (s.pointers.lookup id).isNone = true
  · rw [if_pos hlk]
    exact ⟨h1, h2, h3⟩
  · rw [if_neg hlk]
    dsimp only
    have hsome : (s.pointers.lookup id).isSome = true := by
      rcases hopt : s.pointers.lookup id with _ | v
      · rw [hopt] at hlk
        simp at hlk
      · rfl
    have hse := setPtr_length_of_isSome s.pointers id ⟨x, y, .touch⟩ hsome
    have hs1 : touchInv
        { s with pointers := setPtr s.pointers id ⟨x, y, PtrType.touch⟩ } := by
      refine ⟨h1, fun hp => ?_, h3⟩
      rw [hse]
      exact h2 hp
    by_cases hpb : s.isPinching = true ∧
        2 ≤ (setPtr s.pointers id ⟨x, y, PtrType.touch⟩).length
    · rw [if_pos hpb]
      cases hg : getTwoPointers (setPtr s.pointers id ⟨x, y, PtrType.touch⟩) with
      | none => exact hs1
      | some ab =>
        obtain ⟨a, b⟩ := ab
        dsimp only
        by_cases hsd : s.pinchStartDist > 0
        · rw [if_pos hsd]
          exact ⟨h1, fun _ => hpb.2, h3⟩
        · rw [if_neg hsd]
          exact hs1
    · rw [if_neg hpb]
      rw [if_neg (by simp : ¬(s.isPanning = true ∧ PtrType.touch = PtrType.mouse))]
      have hT := touchInv_tryStart distFn imgW imgH
        { s with pointers := setPtr s.pointers id ⟨x, y, PtrType.touch⟩ } id x y hs1
      obtain ⟨t1, t2, t3⟩ := hT
      have hpf : s.isPinching = false := by
        rcases Bool.eq_false_or_eq_true s.isPinching with ht | hf
        · exact absurd ⟨ht, by rw [hse]; exact h2 ht⟩ hpb
        · exact hf
      split
      · split
        · exact ⟨t1, t2, t3⟩
        · refine ⟨?_, ?_, ?_⟩
          · rw [movePathAtScreen_isPanning]
            exact t1
          · rw [movePathAtScreen_isPinching, movePathAtScreen_pointers]
            exact t2
          · rw [movePathAtScreen_isPinching]
            intro hcc
            rw [tryStart_isPinching] at hcc
            simp only at hcc
            rw [hpf] at hcc
            exact Bool.false_ne_true hcc.2
      · exact ⟨t1, t2, t3⟩

theorem touchInv_up_tail (u : AppState) (id : Nat) (h1 : u.isPanning = false)
    (h3 : ¬(u.path.isPathDrawing = true ∧ u.isPinching = true)) :
    touchInv (
      let u2 := if u.path.isPathDrawing = true ∧ u.drawingPointerId = some id
                then { u with path := endPath u.path, drawingPointerId := none }
                else u
      if u2.pointers.length < 2 then { u2 with isPinching := false } else u2) := by
  dsimp only
  by_cases hend : u.path.isPathDrawing = true ∧ u.drawingPointerId = some id
  · rw [if_pos hend]
    dsimp only
    by_cases hfin : u.pointers.length < 2
    · rw [if_pos hfin]
      refine ⟨h1, fun hp => absurd hp (by simp), ?_⟩
      rintro ⟨-, hp⟩
      exact Bool.false_ne_true hp
    · rw [if_neg hfin]
      refine ⟨h1, fun _ => by show 2 ≤ u.pointers.length; omega, ?_⟩
      rintro ⟨hd, -⟩
      exact Bool.false_ne_true hd
  · rw [if_neg hend]
    by_cases hfin : u.pointers.length < 2
    · rw [if_pos hfin]
      refine ⟨h1, fun hp => absurd hp (by simp), ?_⟩
      rintro ⟨-, hp⟩
      exact Bool.false_ne_true hp
    · rw [if_neg hfin]
      exact ⟨h1, fun _ => by show 2 ≤ u.pointers.length; omega, h3⟩

theorem touchInv_up (s : AppState) (id : Nat) (h : touchInv s) :
    touchInv (onPointerUp s id .touch) := by
  obtain ⟨h1, h2, h3⟩ := h
  unfold onPointerUp
  dsimp only
  by_cases hlk : (s.pointers.lookup id).isSome = true
  · rw [if_pos hlk]
    cases hcand : s.drawCandidate with
    | none => exact touchInv_up_tail _ id h1 h3
    | some c =>
      dsimp only
      by_cases hcid : c.id = id
      · rw [if_pos hcid]
        exact touchInv_up_tail _ id h1 h3
      · rw [if_neg hcid]
        exact touchInv_up_tail _ id h1 h3
  · rw [if_neg hlk]
    cases hcand : s.drawCandidate with
    | none => exact touchInv_up_tail _ id h1 h3
    | some c =>
      dsimp only
      by_cases hcid : c.id = id
      · rw [if_pos hcid]
        exact touchInv_up_tail _ id h1 h3
      · rw [if_neg hcid]
        exact touchInv_up_tail _ id h1 h3

theorem touchInv_timer (imgW imgH : ℚ) (s : AppState) (h : touchInv s) :
    touchInv (timerFire imgW imgH s) := by
  obtain ⟨h1, h2, h3⟩ := h
  unfold timerFire
  cases hcand : s.drawCandidate with
  | none => exact ⟨h1, h2, h3⟩
  | some c =>
    dsimp only
    by_cases hl1 : s.pointers.length = 1
    · rw [if_pos hl1]
      have hpf : s.isPinching = false := by
        rcases Bool.eq_false_or_eq_true s.isPinching with ht | hf
        · exfalso
          have := h2 ht
          rw [hl1] at this
          omega
        · exact hf
      obtain ⟨b1, b2, b3⟩ :=
        touchInv_beginTouchDraw imgW imgH s c.id c.x c.y ⟨h1, h2, h3⟩ hpf
      exact ⟨b1, b2, b3⟩
    · rw [if_neg hl1]
      exact ⟨h1, h2, h3⟩

theorem touchInv_run (distFn : Point → Point → ℚ) (imgW imgH : ℚ) :
    ∀ (evs : List PEvent), (∀ e ∈ evs, touchEvent e) →
      ∀ s : AppState, touchInv s →
        touchInv (runEvents distFn imgW imgH s evs) := by
  intro evs
  induction evs with
  | nil => intro _ s hs; exact hs
  | cons e rest ih =>
    intro hall s hs
    have he : touchEvent e := hall e (List.mem_cons_self _ _)
    have hrest : ∀ e' ∈ rest, touchEvent e' :=
      fun e' h' => hall e' (List.mem_cons_of_mem _ h')
    unfold runEvents
    rw [List.foldl_cons]
    apply ih hrest
    cases e with
    | down id x y ptype button ctrl =>
      have hp : ptype = PtrType.touch := he
      subst hp
      exact touchInv_down distFn imgW imgH s id x y button ctrl hs
    | move id x y ptype ctrl =>
      have hp : ptype = PtrType.touch := he
      subst hp
      exact touchInv_move distFn imgW imgH s id x y ctrl hs
    | up id ptype =>
      have hp : ptype = PtrType.touch := he
      subst hp
      exact touchInv_up s id hs
    | timer => exact touchInv_timer imgW imgH s hs

theorem touchInv_initial : touchInv initialState := by
  refine ⟨rfl, fun hp => ?_, ?_⟩
  · exact absurd hp (by simp [initialState])
  · rintro ⟨hd, -⟩
    exact absurd hd (by simp [initialState])

theorem clamp_mem_zoomBounds (v : ℚ) :
    ZOOM_MIN ≤ clamp v ZOOM_MIN ZOOM_MAX ∧ clamp v ZOOM_MIN ZOOM_MAX ≤ ZOOM_MAX := by
  refine ⟨le_max_left _ _, max_le ?_ (min_le_left _ _)⟩
  norm_num [ZOOM_MIN, ZOOM_MAX]

/-- Scale within the zoom bounds together with Absolute zoom mode. -/
def zoomAbsInv (v : ViewState) : Prop :=
  (ZOOM_MIN ≤ v.scale ∧ v.scale ≤ ZOOM_MAX) ∧ v.zoomMode = .abs

theorem zoomAbsInv_applyViewOp (imgW imgH : ℚ) (v : ViewState) (op : ViewOp)
    (hop : nonFitOp op) (h : zoomAbsInv v) :
    zoomAbsInv (applyViewOp imgW imgH v op) := by
  cases op with
  | zoomCmd r cmd =>
    cases cmd with
    | fit => exact absurd hop id
    | abs t => exact ⟨clamp_mem_zoomBounds t, rfl⟩
  | pinch sd ss nd mid aw =>
    unfold applyViewOp pinchZoomUpdate
    dsimp only
    by_cases hsd : sd > 0
    · rw [if_pos hsd]
      exact ⟨clamp_mem_zoomBounds _, rfl⟩
    · rw [if_neg hsd]
      exact h
  | resize r =>
    unfold applyViewOp onResize
    cases hzm : v.zoomMode with
    | fit => exact absurd h.2 (by rw [hzm]; exact fun hc => ZoomMode.noConfusion hc)
    | abs =>
      dsimp only
      exact ⟨h.1, rfl⟩

theorem zoomAbsInv_foldl (imgW imgH : ℚ) :
    ∀ (ops : List ViewOp) (v : ViewState), (∀ op ∈ ops, nonFitOp op) →
      zoomAbsInv v → zoomAbsInv (ops.foldl (applyViewOp imgW imgH) v) := by
  intro ops
  induction ops with
  | nil => intro v _ hv; exact hv
  | cons op rest ih =>
    intro v hall hv
    rw [List.foldl_cons]
    exact ih _ (fun o ho => hall o (List.mem_cons_of_mem _ ho))
      (zoomAbsInv_applyViewOp imgW imgH v op (hall op (List.mem_cons_self _ _)) hv)

theorem stepsMatch_length :
    ∀ (rest : List Tile) (a : Tile) (dirs : List Dir),
      stepsMatch a rest dirs = true → dirs.length = rest.length := by
  intro rest
  induction rest with
  | nil =>
    intro a dirs h
    cases dirs with
    | nil => rfl
    | cons d ds => simp [stepsMatch] at h
  | cons b ts ih =>
    intro a dirs h
    cases dirs with
    | nil => simp [stepsMatch] at h
    | cons d ds =>
      simp only [stepsMatch, Bool.and_eq_true] at h
      simp only [List.length_cons, ih b ds h.2]

theorem pathInvB_lengths (s : PathState) (h : pathInvB s = true) :
    s.pathTiles = [] ∨
      s.pathDirections.length + 1 = s.pathTiles.length := by
  cases hpt : s.pathTiles with
  | nil => exact Or.inl rfl
  | cons a rest =>
    unfold pathInvB at h
    rw [hpt] at h
    simp only [Bool.and_eq_true] at h
    right
    simp [List.length_cons, stepsMatch_length rest a s.pathDirections h.1]

/-- C3: the source's stepping loop follows exactly the spec's greedy rule
(`specStep`/`specTrace`, written from the spec's words: step along the axis
with the larger or equal absolute remaining delta, ties to the horizontal
axis, emitting the §4.4 token of each step), and the concrete scenario
(0,0) → (3,1) yields cells (0,0),(1,0),(2,0),(3,0),(3,1) with directions
right, right, right, down. -/
theorem extendPathTo_greedy_axis_order_and_scenario :
    (∀ (c t : Tile) (tiles : List Tile) (dirs : List Dir),
      extendLoop t (manhattan c t) c tiles dirs =
        (tiles ++ (specTrace (manhattan c t) c t).1,
         dirs ++ (specTrace (manhattan c t) c t).2, t)) ∧
    extendPathTo ⟨[⟨0, 0⟩], [], some ⟨0, 0⟩, true⟩ ⟨3, 1⟩ =
      ⟨[⟨0, 0⟩, ⟨1, 0⟩, ⟨2, 0⟩, ⟨3, 0⟩, ⟨3, 1⟩],
       [.right, .right, .right, .down], some ⟨3, 1⟩, true⟩ := by
  constructor
  · intro c t tiles dirs
    exact extendLoop_eq_specTrace t (manhattan c t) c tiles dirs le_rfl
  · decide

/-- C9: the `extendPathTo` while-loop terminates: with fuel at least the
Manhattan distance it reaches the target, appending exactly one cell and one
direction per iteration (so it runs exactly `manhattan` iterations), and each
greedy step decreases the Manhattan distance by exactly one. -/
theorem extendLoop_terminates_in_manhattan_steps (c t : Tile)
    (tiles : List Tile) (dirs : List Dir) (fuel : Nat)
    (hf : manhattan c t ≤ fuel) :
    (extendLoop t fuel c tiles dirs).2.2 = t ∧
    (extendLoop t fuel c tiles dirs).1.length =
      tiles.length + manhattan c t ∧
    (extendLoop t fuel c tiles dirs).2.1.length =
      dirs.length + manhattan c t ∧
    (c ≠ t → manhattan (specStep c t) t + 1 = manhattan c t) := by
  have he := extendLoop_eq_specTrace t fuel c tiles dirs hf
  have hm : manhattan c t ≤ fuel := hf
  have hl := specTrace_length t fuel c hm
  refine ⟨?_, ?_, ?_, fun hne => manhattan_specStep hne⟩
  · rw [he]
  · rw [he]
    simp [hl.1]
  · rw [he]
    simp [hl.2]

theorem extendLoop_terminates_in_manhattan_steps_witness :
    (extendLoop ⟨2, 2⟩ 4 ⟨0, 0⟩ [⟨0, 0⟩] []).2.2 = ⟨2, 2⟩ ∧
    (extendLoop ⟨2, 2⟩ 4 ⟨0, 0⟩ [⟨0, 0⟩] []).1.length = 1 + 4 ∧
    (extendLoop ⟨2, 2⟩ 4 ⟨0, 0⟩ [⟨0, 0⟩] []).2.1.length = 0 + 4 ∧
    manhattan (specStep ⟨0, 0⟩ ⟨2, 2⟩) ⟨2, 2⟩ + 1 = manhattan ⟨0, 0⟩ ⟨2, 2⟩ := by
  have h := extendLoop_terminates_in_manhattan_steps ⟨0, 0⟩ ⟨2, 2⟩
    [⟨0, 0⟩] [] 4 (by decide)
  exact ⟨h.1, h.2.1, h.2.2.1, h.2.2.2 (by decide)⟩

/-- C4: `extendPathTo` performs no image-bounds check: for an active path
(`lastTile = some c`) and any target `t ≠ c` whose cell origin lies outside
the image (`withinImage` false at `TILE_SIZE * t`), the path is still
extended by `manhattan c t > 0` cells and directions, not ignored. -/
theorem extendPathTo_ignores_image_bounds (imgW imgH : ℚ) (s : PathState)
    (c t : Tile) (hlt : s.lastTile = some c) (hne : t ≠ c)
    (_hout : withinImage imgW imgH (TILE_SIZE * t.x) (TILE_SIZE * t.y) = false) :
    (extendPathTo s t).pathTiles.length =
      s.pathTiles.length + manhattan c t ∧
    (extendPathTo s t).pathDirections.length =
      s.pathDirections.length + manhattan c t ∧
    0 < manhattan c t ∧
    (extendPathTo s t).lastTile = some t := by
  have hpos : 0 < manhattan c t := by
    rcases Nat.eq_zero_or_pos (manhattan c t) with h0 | hp
    · exact absurd (manhattan_eq_zero.mp h0) (Ne.symm hne)
    · exact hp
  have hterm := extendLoop_terminates_in_manhattan_steps c t
    s.pathTiles s.pathDirections (manhattan c t) le_rfl
  unfold extendPathTo
  rw [hlt]
  dsimp only
  exact ⟨hterm.2.1, hterm.2.2.1, hpos, by rw [hterm.1]⟩

theorem extendPathTo_ignores_image_bounds_witness :
    (withinImage 160 160 (TILE_SIZE * (100 : Int)) (TILE_SIZE * (0 : Int)) =
      false) ∧
    (extendPathTo ⟨[⟨0, 0⟩], [], some ⟨0, 0⟩, true⟩ ⟨100, 0⟩).pathTiles.length =
      1 + manhattan ⟨0, 0⟩ ⟨100, 0⟩ ∧
    (extendPathTo ⟨[⟨0, 0⟩], [], some ⟨0, 0⟩, true⟩ ⟨100, 0⟩).lastTile =
      some ⟨100, 0⟩ := by
  have hout : withinImage 160 160 (TILE_SIZE * ((100 : Int) : ℚ))
      (TILE_SIZE * ((0 : Int) : ℚ)) = false := by
    norm_num [withinImage, TILE_SIZE]
  have h := extendPathTo_ignores_image_bounds 160 160
    ⟨[⟨0, 0⟩], [], some ⟨0, 0⟩, true⟩ ⟨0, 0⟩ ⟨100, 0⟩ rfl (by decide) hout
  exact ⟨hout, h.1, h.2.2.2⟩

/-- C5 counterexample: the invariant exactly as claimed (`claimedInvB`:
nonempty cells, directions exactly one fewer, unit steps matching tokens) is
not preserved: `clearPath` empties both sequences (0 directions is not one
fewer than 0 cells), and `extendPathTo` from a state whose `lastTile`
disagrees with the final recorded cell appends a non-unit step, so the
claimed invariant also needs the `lastTile`-consistency conjunct. -/
theorem claimed_path_invariant_not_preserved :
    (claimedInvB ⟨[⟨0, 0⟩], [], some ⟨0, 0⟩, true⟩ = true ∧
     claimedInvB (clearPath ⟨[⟨0, 0⟩], [], some ⟨0, 0⟩, true⟩) = false) ∧
    (claimedInvB ⟨[⟨0, 0⟩], [], some ⟨5, 5⟩, true⟩ = true ∧
     claimedInvB (extendPathTo ⟨[⟨0, 0⟩], [], some ⟨5, 5⟩, true⟩ ⟨6, 5⟩) =
       false) := by
  decide

/-- C5 (amended): every path-tracer operation preserves the repaired
invariant `pathInvB`: either the path is completely empty (the cleared
state), or the cells list is nonempty with each consecutive pair a legal unit
step whose token is recorded (`stepsMatch`) and `lastTile` equal to the final
cell; in the nonempty case the directions sequence is exactly one shorter
than the cells sequence. -/
theorem path_invariant_preserved_by_ops (imgW imgH : ℚ) (s : PathState)
    (op : PathOp) (h : pathInvB s = true) :
    pathInvB (applyPathOp imgW imgH s op) = true ∧
    ((applyPathOp imgW imgH s op).pathTiles = [] ∨
      (applyPathOp imgW imgH s op).pathDirections.length + 1 =
        (applyPathOp imgW imgH s op).pathTiles.length) := by
  have hop := pathInvB_op imgW imgH s op h
  exact ⟨hop, pathInvB_lengths _ hop⟩

theorem path_invariant_preserved_by_ops_witness :
    pathInvB (applyPathOp 160 160 ⟨[⟨0, 0⟩], [], some ⟨0, 0⟩, true⟩
      (.extend ⟨2, 1⟩)) = true ∧
    (applyPathOp 160 160 ⟨[⟨0, 0⟩], [], some ⟨0, 0⟩, true⟩
        (.extend ⟨2, 1⟩)).pathDirections.length + 1 =
      (applyPathOp 160 160 ⟨[⟨0, 0⟩], [], some ⟨0, 0⟩, true⟩
        (.extend ⟨2, 1⟩)).pathTiles.length := by
  have h := path_invariant_preserved_by_ops 160 160
    ⟨[⟨0, 0⟩], [], some ⟨0, 0⟩, true⟩ (.extend ⟨2, 1⟩) (by decide)
  refine ⟨h.1, ?_⟩
  rcases h.2 with he | hlen
  · exact absurd he (by decide)
  · exact hlen

/-- C6: for every transform state with positive scale, `worldToScreen` (the
inverse mapping `w ↦ scale * w + panOffset` that the source applies inline in
`setZoom`, the pinch update and the resize handler) undoes `screenToWorld`
exactly over the rationals. -/
theorem worldToScreen_screenToWorld_roundtrip (scale panX panY sx sy : ℚ)
    (hs : 0 < scale) :
    worldToScreen scale panX panY (screenToWorld scale panX panY sx sy).x
      (screenToWorld scale panX panY sx sy).y = ⟨sx, sy⟩ := by
  have h0 : scale ≠ 0 := ne_of_gt hs
  simp only [worldToScreen, screenToWorld, Point.mk.injEq]
  constructor <;> field_simp

theorem worldToScreen_screenToWorld_roundtrip_witness :
    (0 : ℚ) < 2 ∧
    worldToScreen 2 3 4 (screenToWorld 2 3 4 5 6).x
      (screenToWorld 2 3 4 5 6).y = ⟨5, 6⟩ :=
  ⟨by norm_num, worldToScreen_screenToWorld_roundtrip 2 3 4 5 6 (by norm_num)⟩

/-- C7: `withinImage` is membership of both coordinates in
[0, imgW] × [0, imgH] inclusive; `startPathAtWorld` is a strict no-op on an
out-of-bounds world point, and otherwise resets the path to the single seeded
cell `worldToTile` with empty directions and drawing active. -/
theorem startPath_bounds_behavior (imgW imgH : ℚ) (s : PathState) (wx wy : ℚ) :
    (withinImage imgW imgH wx wy = true ↔
      (0 ≤ wx ∧ wx ≤ imgW ∧ 0 ≤ wy ∧ wy ≤ imgH)) ∧
    (withinImage imgW imgH wx wy = false →
      startPathAtWorld imgW imgH s wx wy = s) ∧
    (withinImage imgW imgH wx wy = true →
      startPathAtWorld imgW imgH s wx wy =
        ⟨[worldToTile wx wy], [], some (worldToTile wx wy), true⟩) := by
  refine ⟨?_, ?_, ?_⟩
  · simp only [withinImage, Bool.and_eq_true, decide_eq_true_eq]
    constructor
    · rintro ⟨⟨⟨h1, h2⟩, h3⟩, h4⟩
      exact ⟨h1, h3, h2, h4⟩
    · rintro ⟨h1, h3, h2, h4⟩
      exact ⟨⟨⟨h1, h2⟩, h3⟩, h4⟩
  · intro h
    unfold startPathAtWorld
    rw [h]
    rfl
  · intro h
    unfold startPathAtWorld
    rw [h]
    rfl

theorem startPath_bounds_behavior_witness :
    (startPathAtWorld 160 160 ⟨[⟨1, 1⟩], [.right], some ⟨1, 1⟩, true⟩ (-1) 5 =
      ⟨[⟨1, 1⟩], [.right], some ⟨1, 1⟩, true⟩) ∧
    (startPathAtWorld 160 160 ⟨[⟨1, 1⟩], [.right], some ⟨1, 1⟩, true⟩ 20 5 =
      ⟨[worldToTile 20 5], [], some (worldToTile 20 5), true⟩) ∧
    worldToTile 20 5 = ⟨1, 0⟩ :=
  ⟨(startPath_bounds_behavior 160 160 _ (-1) 5).2.1 (by decide),
   (startPath_bounds_behavior 160 160 _ 20 5).2.2 (by decide),
   by norm_num [worldToTile, TILE_SIZE]⟩

/-- C10: since `withinImage` is inclusive on the right edge, starting a path
at world x exactly `imgW = TILE_SIZE * k` succeeds and seeds cell column `k`
(`imgW / CELL_SIZE`), while every world x actually inside the image lies in a
column strictly below `k` — so the seeded column is one past the last column
covered by the image. -/
theorem startPath_right_edge_inclusive (imgH wy imgW2 wx2 : ℚ) (k : ℕ)
    (s s2 : PathState) (hk : 1 ≤ k) (hy0 : 0 ≤ wy) (hyH : wy ≤ imgH)
    (hx0 : 0 ≤ wx2) (hxW : wx2 ≤ imgW2) :
    withinImage (TILE_SIZE * k) imgH (TILE_SIZE * k) wy = true ∧
    startPathAtWorld (TILE_SIZE * k) imgH s (TILE_SIZE * k) wy =
      ⟨[⟨k, ⌊wy / TILE_SIZE⌋⟩], [], some ⟨k, ⌊wy / TILE_SIZE⌋⟩, true⟩ ∧
    (∀ wx : ℚ, 0 ≤ wx → wx < TILE_SIZE * k → (worldToTile wx wy).x < k) ∧
    withinImage imgW2 (TILE_SIZE * k) wx2 (TILE_SIZE * k) = true ∧
    startPathAtWorld imgW2 (TILE_SIZE * k) s2 wx2 (TILE_SIZE * k) =
      ⟨[⟨⌊wx2 / TILE_SIZE⌋, k⟩], [], some ⟨⌊wx2 / TILE_SIZE⌋, k⟩, true⟩ ∧
    (∀ wy2 : ℚ, 0 ≤ wy2 → wy2 < TILE_SIZE * k → (worldToTile wx2 wy2).y < k) := by
  have hT : (0 : ℚ) < TILE_SIZE := by norm_num [TILE_SIZE]
  have hdiv : (TILE_SIZE * k) / TILE_SIZE = ((k : ℤ) : ℚ) := by
    rw [mul_div_cancel_left₀ _ (ne_of_gt hT)]
    push_cast
    rfl
  have hwi : withinImage (TILE_SIZE * k) imgH (TILE_SIZE * k) wy = true := by
    simp only [withinImage, Bool.and_eq_true, decide_eq_true_eq]
    refine ⟨⟨⟨?_, ?_⟩, ?_⟩, hyH⟩
    · positivity
    · exact hy0
    · exact le_refl _
  have hwi2 : withinImage imgW2 (TILE_SIZE * k) wx2 (TILE_SIZE * k) = true := by
    simp only [withinImage, Bool.and_eq_true, decide_eq_true_eq]
    refine ⟨⟨⟨hx0, ?_⟩, hxW⟩, le_refl _⟩
    positivity
  have hfx : worldToTile (TILE_SIZE * k) wy = ⟨k, ⌊wy / TILE_SIZE⌋⟩ := by
    unfold worldToTile
    rw [hdiv, Int.floor_intCast]
  have hfy : worldToTile wx2 (TILE_SIZE * k) = ⟨⌊wx2 / TILE_SIZE⌋, k⟩ := by
    unfold worldToTile
    rw [hdiv, Int.floor_intCast]
  refine ⟨hwi, ?_, ?_, hwi2, ?_, ?_⟩
  · unfold startPathAtWorld
    rw [hwi, hfx]
    rfl
  · intro wx hwx0 hxlt
    unfold worldToTile
    dsimp only
    rw [Int.floor_lt]
    push_cast
    rw [div_lt_iff₀ hT]
    linarith
  · unfold startPathAtWorld
    rw [hwi2, hfy]
    rfl
  · intro wy2 hwy0 hylt
    unfold worldToTile
    dsimp only
    rw [Int.floor_lt]
    push_cast
    rw [div_lt_iff₀ hT]
    linarith

theorem startPath_right_edge_inclusive_witness :
    withinImage (TILE_SIZE * (10 : ℕ)) 200 (TILE_SIZE * (10 : ℕ)) 5 = true ∧
    startPathAtWorld (TILE_SIZE * (10 : ℕ)) 200 ⟨[], [], none, false⟩
        (TILE_SIZE * (10 : ℕ)) 5 =
      ⟨[⟨(10 : ℕ), ⌊(5 : ℚ) / TILE_SIZE⌋⟩], [],
       some ⟨(10 : ℕ), ⌊(5 : ℚ) / TILE_SIZE⌋⟩, true⟩ ∧
    (worldToTile 159 5).x < (10 : ℕ) ∧
    withinImage 300 (TILE_SIZE * (10 : ℕ)) 7 (TILE_SIZE * (10 : ℕ)) = true := by
  have h := startPath_right_edge_inclusive 200 5 300 7 10 ⟨[], [], none, false⟩
    ⟨[], [], none, false⟩ (by decide) (by decide) (by decide) (by decide)
    (by decide)
  exact ⟨h.1, h.2.1, h.2.2.1 159 (by decide) (by norm_num [TILE_SIZE]),
    h.2.2.2.1⟩

/-- C1 counterexample: in the second (ungated) `script.js` variant, a second
touch pointer arriving while a single-finger path draw is in progress is
ignored (`if (isPathDrawing) return`): the path keeps its cells, drawing
stays active, and no pinch starts — contradicting the claim that the path is
discarded and the session transitions to Pinching. -/
theorem second_touch_ignored_in_ungated_variant :
    (V2.onPointerDown sqDist 160 160
      { scale := 1, panX := 0, panY := 0, fitScale := 1, zoomMode := .fit,
        pointers := [(0, ⟨20, 5, .touch⟩)], isPanning := false,
        panLastX := 0, panLastY := 0, isPinching := false, pinchStartDist := 0,
        pinchStartScale := 1, pinchMidWorld := ⟨0, 0⟩,
        path := ⟨[⟨1, 0⟩], [], some ⟨1, 0⟩, true⟩ }
      1 100 5 .touch 0 false).path = ⟨[⟨1, 0⟩], [], some ⟨1, 0⟩, true⟩ ∧
    (V2.onPointerDown sqDist 160 160
      { scale := 1, panX := 0, panY := 0, fitScale := 1, zoomMode := .fit,
        pointers := [(0, ⟨20, 5, .touch⟩)], isPanning := false,
        panLastX := 0, panLastY := 0, isPinching := false, pinchStartDist := 0,
        pinchStartScale := 1, pinchMidWorld := ⟨0, 0⟩,
        path := ⟨[⟨1, 0⟩], [], some ⟨1, 0⟩, true⟩ }
      1 100 5 .touch 0 false).isPinching = false := by
  decide

/-- C1 (amended): in the first (gated) `script.js` variant the claim holds:
while a single-pointer touch draw is in progress, a second touch pointer
going down cancels any candidate, discards the path (cells, directions and
last cell cleared, drawing stopped — not finalized), and starts a pinch whose
state is taken from the two active pointers' current positions (their
distance, the current scale, and the world point under their midpoint). -/
theorem second_touch_aborts_draw_and_starts_pinch
    (distFn : Point → Point → ℚ) (imgW imgH : ℚ) (s : AppState)
    (pid0 : Nat) (p0 : Ptr) (id : Nat) (x y : ℚ) (button : Nat) (ctrl : Bool)
    (hptr : s.pointers = [(pid0, p0)]) (hid : pid0 ≠ id)
    (hdraw : s.path.isPathDrawing = true) :
    (onPointerDown distFn imgW imgH s id x y .touch button ctrl).path =
      ⟨[], [], none, false⟩ ∧
    (onPointerDown distFn imgW imgH s id x y .touch button ctrl).drawingPointerId =
      none ∧
    (onPointerDown distFn imgW imgH s id x y .touch button ctrl).drawCandidate =
      none ∧
    (onPointerDown distFn imgW imgH s id x y .touch button ctrl).isPinching =
      true ∧
    (onPointerDown distFn imgW imgH s id x y .touch button ctrl).pinchStartDist =
      distFn ⟨p0.x, p0.y⟩ ⟨x, y⟩ ∧
    (onPointerDown distFn imgW imgH s id x y .touch button ctrl).pinchStartScale =
      s.scale ∧
    (onPointerDown distFn imgW imgH s id x y .touch button ctrl).pinchMidWorld =
      screenToWorld s.scale s.panX s.panY ((p0.x + x) / 2) ((p0.y + y) / 2) := by
  have hbeq : (id == pid0) = false := by
    simp only [beq_eq_false_iff_ne, ne_eq]
    exact Ne.symm hid
  have hsp : setPtr s.pointers id ⟨x, y, PtrType.touch⟩ =
      [(pid0, p0), (id, ⟨x, y, PtrType.touch⟩)] := by
    rw [hptr]
    simp [setPtr, List.lookup, hbeq]
  unfold onPointerDown
  dsimp only
  rw [hsp]
  rw [if_pos (by rfl : ([(pid0, p0), (id, ⟨x, y, PtrType.touch⟩)] :
    List (Nat × Ptr)).length = 2)]
  dsimp only [cancelTouchCandidate]
  rw [if_pos hdraw]
  dsimp only [abortDrawing, clearPath, getTwoPointers, midpointP, screenToWorld]
  exact ⟨rfl, rfl, rfl, rfl, rfl, rfl, rfl⟩

theorem second_touch_aborts_draw_and_starts_pinch_witness :
    ((0 : Nat) ≠ 1) ∧
    (onPointerDown sqDist 160 160
      { scale := 1, panX := 0, panY := 0, fitScale := 1, zoomMode := .fit,
        pointers := [(0, ⟨3, 4, .touch⟩)], isPanning := false,
        panLastX := 0, panLastY := 0, isPinching := false, pinchStartDist := 0,
        pinchStartScale := 1, pinchMidWorld := ⟨0, 0⟩,
        path := ⟨[⟨0, 0⟩], [], some ⟨0, 0⟩, true⟩,
        drawingPointerId := some 0, drawCandidate := none }
      1 9 8 .touch 0 false).path = ⟨[], [], none, false⟩ ∧
    (onPointerDown sqDist 160 160
      { scale := 1, panX := 0, panY := 0, fitScale := 1, zoomMode := .fit,
        pointers := [(0, ⟨3, 4, .touch⟩)], isPanning := false,
        panLastX := 0, panLastY := 0, isPinching := false, pinchStartDist := 0,
        pinchStartScale := 1, pinchMidWorld := ⟨0, 0⟩,
        path := ⟨[⟨0, 0⟩], [], some ⟨0, 0⟩, true⟩,
        drawingPointerId := some 0, drawCandidate := none }
      1 9 8 .touch 0 false).isPinching = true ∧
    (onPointerDown sqDist 160 160
      { scale := 1, panX := 0, panY := 0, fitScale := 1, zoomMode := .fit,
        pointers := [(0, ⟨3, 4, .touch⟩)], isPanning := false,
        panLastX := 0, panLastY := 0, isPinching := false, pinchStartDist := 0,
        pinchStartScale := 1, pinchMidWorld := ⟨0, 0⟩,
        path := ⟨[⟨0, 0⟩], [], some ⟨0, 0⟩, true⟩,
        drawingPointerId := some 0, drawCandidate := none }
      1 9 8 .touch 0 false).pinchStartDist = sqDist ⟨3, 4⟩ ⟨9, 8⟩ := by
  have h := second_touch_aborts_draw_and_starts_pinch sqDist 160 160
    { scale := 1, panX := 0, panY := 0, fitScale := 1, zoomMode := .fit,
      pointers := [(0, ⟨3, 4, .touch⟩)], isPanning := false,
      panLastX := 0, panLastY := 0, isPinching := false, pinchStartDist := 0,
      pinchStartScale := 1, pinchMidWorld := ⟨0, 0⟩,
      path := ⟨[⟨0, 0⟩], [], some ⟨0, 0⟩, true⟩,
      drawingPointerId := some 0, drawCandidate := none }
    0 ⟨3, 4, .touch⟩ 1 9 8 0 false rfl (by decide) rfl
  exact ⟨by decide, h.1, h.2.2.2.1, h.2.2.2.2.1⟩

/-- C2 counterexample: `computeFitAndCenter` does not clamp: fitting a
7200×7200 image (the map's real size) into a 500×900 content rect sets
`scale = min (500/7200) (900/7200) = 5/72 < ZOOM_MIN`, so a fit command
drives the scale below the claimed lower bound. -/
theorem fit_scale_escapes_zoom_bounds :
    (applyViewOp 7200 7200 ⟨1, 0, 0, 1, .fit⟩
      (.zoomCmd ⟨0, 40, 500, 900⟩ .fit)).scale < ZOOM_MIN := by
  show (setZoom 7200 7200 ⟨0, 40, 500, 900⟩ .fit ⟨1, 0, 0, 1, .fit⟩).scale <
    ZOOM_MIN
  unfold setZoom computeFitAndCenter
  dsimp only
  rw [min_def]
  norm_num [ZOOM_MIN]

/-- C2 (amended): the explicitly clamping viewport operations — absolute
zoom commands, pinch updates, and resizes while in Absolute mode — keep
`scale` in [ZOOM_MIN, ZOOM_MAX] over any operation sequence (out-of-range
requests are clamped, not rejected); only the fit computation (and a resize
while in Fit mode, which re-runs it) escapes the bounds. -/
theorem nonfit_ops_preserve_zoom_bounds (imgW imgH : ℚ) (v : ViewState)
    (ops : List ViewOp) (hv : ZOOM_MIN ≤ v.scale ∧ v.scale ≤ ZOOM_MAX)
    (hm : v.zoomMode = .abs) (hops : ∀ op ∈ ops, nonFitOp op) :
    ZOOM_MIN ≤ (ops.foldl (applyViewOp imgW imgH) v).scale ∧
    (ops.foldl (applyViewOp imgW imgH) v).scale ≤ ZOOM_MAX :=
  (zoomAbsInv_foldl imgW imgH ops v hops ⟨hv, hm⟩).1

theorem nonfit_ops_preserve_zoom_bounds_witness :
    ZOOM_MIN ≤ ([ViewOp.zoomCmd ⟨0, 0, 100, 100⟩ (.abs 50),
        ViewOp.pinch 1 1 3 ⟨0, 0⟩ ⟨0, 0⟩,
        ViewOp.resize ⟨0, 0, 10, 10⟩].foldl (applyViewOp 7200 7200)
        ⟨1, 0, 0, 1, .abs⟩).scale ∧
    ([ViewOp.zoomCmd ⟨0, 0, 100, 100⟩ (.abs 50),
        ViewOp.pinch 1 1 3 ⟨0, 0⟩ ⟨0, 0⟩,
        ViewOp.resize ⟨0, 0, 10, 10⟩].foldl (applyViewOp 7200 7200)
        ⟨1, 0, 0, 1, .abs⟩).scale ≤ ZOOM_MAX := by
  apply nonfit_ops_preserve_zoom_bounds
  · constructor
    · norm_num [ZOOM_MIN]
    · norm_num [ZOOM_MAX]
  · rfl
  · intro op hop
    simp only [List.mem_cons, List.not_mem_nil, or_false] at hop
    rcases hop with rfl | rfl | rfl
    · exact trivial
    · exact trivial
    · exact trivial

/-- C8 counterexample: with mixed modalities the gesture modes overlap: a
mouse button held down (Panning) followed by a touch pointer going down
leaves both `isPanning` and `isPinching` true simultaneously — no mode is
aborted. -/
theorem mixed_modality_overlaps_pan_and_pinch :
    (runEvents sqDist 160 160 initialState
      [.down 0 0 0 .mouse 0 false, .down 1 8 0 .touch 0 false]).isPanning =
      true ∧
    (runEvents sqDist 160 160 initialState
      [.down 0 0 0 .mouse 0 false, .down 1 8 0 .touch 0 false]).isPinching =
      true := by
  decide

/-- C8 (amended): restricted to touch-only event sequences (the candidate
timer included), at most one of Panning, Drawing, Pinching is ever active in
any state reachable from the initial state: panning never starts, and
drawing and pinching exclude each other (a second finger aborts an active
draw before pinching starts). -/
theorem touch_only_gesture_exclusive (distFn : Point → Point → ℚ)
    (imgW imgH : ℚ) (evs : List PEvent) (h : ∀ e ∈ evs, touchEvent e) :
    ¬((runEvents distFn imgW imgH initialState evs).isPanning = true ∧
      (runEvents distFn imgW imgH initialState evs).path.isPathDrawing =
        true) ∧
    ¬((runEvents distFn imgW imgH initialState evs).isPanning = true ∧
      (runEvents distFn imgW imgH initialState evs).isPinching = true) ∧
    ¬((runEvents distFn imgW imgH initialState evs).path.isPathDrawing =
        true ∧
      (runEvents distFn imgW imgH initialState evs).isPinching = true) := by
  obtain ⟨h1, h2, h3⟩ :=
    touchInv_run distFn imgW imgH evs h initialState touchInv_initial
  refine ⟨?_, ?_, h3⟩
  · rintro ⟨hp, -⟩
    rw [h1] at hp
    exact Bool.false_ne_true hp
  · rintro ⟨hp, -⟩
    rw [h1] at hp
    exact Bool.false_ne_true hp

theorem touch_only_gesture_exclusive_witness :
    ¬((runEvents sqDist 160 160 initialState
        [PEvent.down 7 20 5 .touch 0 false, PEvent.timer]).path.isPathDrawing =
        true ∧
      (runEvents sqDist 160 160 initialState
        [PEvent.down 7 20 5 .touch 0 false, PEvent.timer]).isPinching =
        true) := by
  have h := touch_only_gesture_exclusive sqDist 160 160
    [PEvent.down 7 20 5 .touch 0 false, PEvent.timer] (by decide)
  exact h.2.2
